import Mathlib

/-!
Verification of the "Invisible Wall" (iw) pedestrian-trajectory pipeline.

The development shallowly embeds the two numerical cores of the repository:

* `src/kalman.py` — `kalman_filter`, `run_filter` and `kalman`: a constant-
  acceleration Kalman filter over per-track dataframes with NaN-marked gaps,
  followed by RTS smoothing, writing twelve new columns into the dataframe.
* `src/pixelmapper.py` — `_extrinsic_calibration` and the `PixelMapper` class
  mapping pixel coordinates to ground-plane world coordinates via a homography.

Modelling conventions:
* Machine floats become exact rationals `ℚ`; a pandas/NumPy NaN cell becomes
  `Option ℚ` with `none` for NaN.
* A dataframe row becomes `Row α`: the columns used by the code
  (`trackingId`, `frame`, `x`, `y`) plus an opaque payload `α` standing for
  all other columns (which the code never touches).
* Python exceptions become `Except Err`; `Err` lists the library exceptions
  the embedded code can actually raise, plus the spec's hypothesised
  `uninitializedTrack` error, which the code never constructs.
* External library routines that the repository merely calls are embedded by
  their documented semantics: the filterpy predict/update/batch/RTS equations
  and NumPy's `inv` are written out; OpenCV's `findHomography` (an internal
  RANSAC search) and `undistortPoints` are taken as function parameters, since
  the repository treats them as black boxes and adds no logic around them
  beyond what is embedded here.
-/

namespace IW

/-- Python exceptions that can surface from the embedded code.  `indexError`
is pandas' `.iloc[0]` on an empty selection, `valueError` is a
length-mismatched assignment / `np.vstack` of an empty list, `linAlgError`
is NumPy's singular-matrix error inside `filterpy`.  `uninitializedTrack`
is the spec's `UninitializedTrackError`; no code in the repository ever
raises it (it exists here so that claims about it can be stated). -/
inductive Err where
  | indexError
  | valueError
  | linAlgError
  | uninitializedTrack
deriving DecidableEq

/-- Decidable equality of computation results (used to evaluate the
embedded pipeline on concrete inputs). -/
instance exceptDecEq {e b : Type} [DecidableEq e] [DecidableEq b] : DecidableEq (Except e b)
  | .ok a, .ok a' => if h : a = a' then .isTrue (by rw [h]) else .isFalse (by simp [h])
  | .ok _, .error _ => .isFalse (by simp)
  | .error _, .ok _ => .isFalse (by simp)
  | .error x, .error x' => if h : x = x' then .isTrue (by rw [h]) else .isFalse (by simp [h])

abbrev Vec6 := Matrix (Fin 6) (Fin 1) ℚ
abbrev Mat6 := Matrix (Fin 6) (Fin 6) ℚ
abbrev Mat2 := Matrix (Fin 2) (Fin 2) ℚ
abbrev Mat26 := Matrix (Fin 2) (Fin 6) ℚ
abbrev Vec2 := Matrix (Fin 2) (Fin 1) ℚ

/-- One saved filter output: the posterior state (a 6×1 column, as in the
`mu[:, i, 0]` indexing of the source; `none` is a state column all of whose
entries are float NaN) and its covariance. -/
abbrev KOutState := Option Vec6 × Mat6

/-- One measurement as fed to `kfilter.batch_filter` for a "present" run:
the raw `(x, y)` cells of the row, each possibly NaN (`none`). -/
abbrev Meas := Option ℚ × Option ℚ

/-- The `filterpy.kalman.KalmanFilter` object as configured by `kalman_filter`
(`dim_x=6`, `dim_z=2`: the repository only ever instantiates `nsensors=1`,
via the default argument in `kalman(df)`).  `u` is set to `0.` in the source
and plays no role in `predict` (no control input), so it is omitted.

The state column `x` is `Option Vec6`: `some v` is a finite state vector,
`none` is a state vector all of whose entries are float NaN.  NaN entry
patterns in this pipeline are all-or-nothing: the only NaN source is a NaN
cell inside a fed measurement `z`, and in `x + K @ (z - H @ x)` every
entry of the result adds a multiple of every component of the residual,
where IEEE arithmetic is absorbing (`a + NaN = NaN`, `a * NaN = NaN`,
including `0 * NaN = NaN`), so one NaN component makes the whole posterior
state NaN, and `F @ x` likewise keeps a whole-NaN state whole-NaN.  The
covariance `P` is never a function of `z` or `x` (filterpy's covariance
updates use only `F`, `H`, `Q`, `R` and `P`), so it stays finite and is a
plain matrix. -/
structure KF where
  F : Mat6
  H : Mat26
  R : Mat2
  Q : Mat6
  x : Option Vec6
  P : Mat6
deriving DecidableEq

/-- Column vector from a 6-tuple (the source's `np.array([[...]]).T`). -/
def colv (v : Fin 6 → ℚ) : Vec6 :=
  Matrix.of fun i _ => v i

/-- Column vector from a 2-tuple. -/
def colv2 (v : Fin 2 → ℚ) : Vec2 :=
  Matrix.of fun i _ => v i

/-- Embedding of `filterpy.common.Q_discrete_white_noise(dim=3, dt, var)`:
`[[.25dt⁴, .5dt³, .5dt²], [.5dt³, dt², dt], [.5dt², dt, 1]] * var`. -/
def Q_discrete_white_noise (dt var : ℚ) : Matrix (Fin 3) (Fin 3) ℚ :=
  var • !![(1/4)*dt^4, (1/2)*dt^3, (1/2)*dt^2;
           (1/2)*dt^3, dt^2, dt;
           (1/2)*dt^2, dt, 1]

/-- Embedding of `scipy.linalg.block_diag(q, q)` for two 3×3 blocks. -/
def block_diag (A B : Matrix (Fin 3) (Fin 3) ℚ) : Mat6 :=
  Matrix.of fun i j =>
    if hi : (i : ℕ) < 3 then
      if hj : (j : ℕ) < 3 then A ⟨i, hi⟩ ⟨j, hj⟩ else 0
    else
      if hj : (j : ℕ) < 3 then 0
      else B ⟨(i : ℕ) - 3, by have := i.isLt; omega⟩ ⟨(j : ℕ) - 3, by have := j.isLt; omega⟩

/-- Embedding of `kalman_filter(sx, sy, dt)` from `src/kalman.py` (with the repository's
only instantiation `nsensors=1`): `R_std = Q_std = 15`; `F` is the
constant-acceleration transition matrix (the source writes `0.5*dt*dt`);
`H` selects `(x, y)` from the state; `R = eye(2) * 15²`;
`Q = block_diag(q, q)` with `q = Q_discrete_white_noise(3, dt, 15²)`;
`x = [[sx, 0, 0, sy, 0, 0]].T`; `P = eye(6) * 15`. -/
def kalman_filter (sx sy dt : ℚ) : KF where
  F := !![1, dt, (1/2)*dt*dt, 0, 0, 0;
          0, 1, dt, 0, 0, 0;
          0, 0, 1, 0, 0, 0;
          0, 0, 0, 1, dt, (1/2)*dt*dt;
          0, 0, 0, 0, 1, dt;
          0, 0, 0, 0, 0, 1]
  H := !![1, 0, 0, 0, 0, 0;
          0, 0, 0, 1, 0, 0]
  R := ((15 : ℚ)^2) • (1 : Mat2)
  Q := block_diag (Q_discrete_white_noise dt ((15 : ℚ)^2))
                  (Q_discrete_white_noise dt ((15 : ℚ)^2))
  x := some (colv ![sx, 0, 0, sy, 0, 0])
  P := (15 : ℚ) • (1 : Mat6)

/-- Embedding of `np.linalg.inv` on a 2×2 matrix, in closed form; `none` is the
`LinAlgError` NumPy raises on a singular input. -/
def inv2 (S : Mat2) : Option Mat2 :=
  let d := S 0 0 * S 1 1 - S 0 1 * S 1 0
  if d = 0 then none
  else some !![S 1 1 / d, -(S 0 1) / d; -(S 1 0) / d, S 0 0 / d]

/-- Cofactor (Laplace) expansion of the determinant along the first row,
written as structural recursion on the dimension so that concrete instances
evaluate inside the kernel; `detRec_eq` below proves it equal to
`Matrix.det`. -/
def detRec : {n : ℕ} → Matrix (Fin n) (Fin n) ℚ → ℚ
  | 0, _ => 1
  | n + 1, A =>
    ∑ j : Fin (n + 1), (-1) ^ (j : ℕ) * A 0 j * detRec (A.submatrix Fin.succ j.succAbove)

/-- Embedding of `np.linalg.inv` on an n×n matrix via determinant and adjugate; `none`
is NumPy's `LinAlgError` on a singular input (the singularity test uses the
kernel-evaluable `detRec`, which equals `Matrix.det`). -/
def matInv {n : ℕ} (A : Matrix (Fin n) (Fin n) ℚ) : Option (Matrix (Fin n) (Fin n) ℚ) :=
  if detRec A = 0 then none else some (A.det⁻¹ • A.adjugate)

/-- Embedding of `KalmanFilter.predict` (no control input): `x ← Fx`, `P ← FPFᵀ + Q`.
A whole-NaN state stays whole-NaN under `F @ x` (every entry of the product
adds a multiple of a NaN entry, and `0 * NaN = NaN`). -/
def predict (kf : KF) : KF :=
  { kf with x := kf.x.map fun v => kf.F * v,
            P := kf.F * kf.P * kf.F.transpose + kf.Q }

/-- Embedding of `KalmanFilter.update z`: residual, innovation covariance, Kalman gain,
and the Joseph-form covariance update, exactly as in filterpy, with `z` the
raw `(x, y)` cells of the row (`none` = NaN).  The innovation covariance,
the gain and the covariance update involve neither `z` nor the state, so
they are computed (and a singular `S` raises `LinAlgError`) regardless of
NaN cells.  The posterior state `x + K @ (z - H @ x)` is finite exactly
when the prior state and both measurement cells are; one NaN among them
makes every entry NaN (IEEE `+` and `*` are NaN-absorbing, `0 * NaN =
NaN`), which is the `none` result. -/
def update (kf : KF) (z : Meas) : Except Err KF :=
  let PHT := kf.P * kf.H.transpose
  let S := kf.H * PHT + kf.R
  match inv2 S with
  | none => .error .linAlgError
  | some SI =>
    let K := PHT * SI
    let IKH := (1 : Mat6) - K * kf.H
    .ok { kf with
            x := match kf.x, z with
              | some v, (some zx, some zy) =>
                some (v + K * (colv2 ![zx, zy] - kf.H * v))
              | _, _ => none,
            P := IKH * kf.P * IKH.transpose + K * kf.R * K.transpose }

/-- One step of `batch_filter`: always predict, then update unless the
measurement slot is `None` (a fed measurement carries its raw, possibly
NaN, cells into `update`). -/
def step (kf : KF) (oz : Option Meas) : Except Err KF :=
  match oz with
  | none => .ok (predict kf)
  | some z => update (predict kf) z

/-- Embedding of `KalmanFilter.batch_filter zs`: fold `step` over the measurement slots,
recording the posterior state and covariance after every step. -/
def batch_filter (kf : KF) : List (Option Meas) → Except Err (KF × List KOutState)
  | [] => .ok (kf, [])
  | oz :: rest => do
    let kf' ← step kf oz
    let (kf2, outs) ← batch_filter kf' rest
    .ok (kf2, (kf'.x, kf'.P) :: outs)

/-- One dataframe row of a track: the columns `trackingId`, `frame`, `x`,
`y` used by `src/kalman.py`, plus an opaque payload `α` standing for any
other columns of the dataframe. -/
structure Row (α : Type) where
  trackingId : ℤ
  frame : ℤ
  x : Option ℚ
  y : Option ℚ
  payload : α
deriving DecidableEq

variable {α : Type}

/-- Fuel-driven worker for `chunkRuns` (structural recursion on the fuel so
that the definition evaluates inside the kernel; the fuel never runs out
when it starts at the list length). -/
def chunkRunsF : ℕ → List (Row α) → List (List (Row α))
  | 0, _ => []
  | _, [] => []
  | n + 1, r :: rs =>
    (r :: rs.takeWhile fun s => s.x.isNone == r.x.isNone) ::
      chunkRunsF n (rs.dropWhile fun s => s.x.isNone == r.x.isNone)

/-- The grouping `df.groupby((isna(x) != isna(x).shift()).cumsum())` of
`run_filter`: the block id increments exactly when the NaN-status of `x`
changes, and the ids are nondecreasing along the frame order, so the groups
are the maximal contiguous runs of constant `isna(x)`. -/
def chunkRuns (l : List (Row α)) : List (List (Row α)) :=
  chunkRunsF l.length l

/-- What `run_filter` feeds to `batch_filter` for one group `gdf`:
`[None] * len(gdf)` when `isna(gdf["x"].iloc[0]) or isna(gdf["y"].iloc[0])`,
otherwise the raw `gdf[["x", "y"]].values`. -/
def planOf (g : List (Row α)) : List (Option Meas) :=
  match g with
  | [] => []
  | r :: rest =>
    if r.x.isNone || r.y.isNone then List.replicate (r :: rest).length none
    else (r :: rest).map fun s => some (s.x, s.y)

/-- The per-group loop of `run_filter`: one `batch_filter` call per group on
the same (threaded) filter object, appending the per-frame outputs. -/
def runChunks (kf : KF) : List (List (Row α)) → Except Err (KF × List KOutState)
  | [] => .ok (kf, [])
  | g :: gs => do
    let (kf1, o1) ← batch_filter kf (planOf g)
    let (kf2, o2) ← runChunks kf1 gs
    .ok (kf2, o1 ++ o2)

/-- Embedding of `run_filter(kfilter, df)` from `src/kalman.py`.  An empty dataframe
makes the final `np.vstack` of an empty list raise a `ValueError`. -/
def run_filter (kf : KF) (rows : List (Row α)) : Except Err (KF × List KOutState) :=
  if rows.isEmpty then .error .valueError
  else runChunks kf (chunkRuns rows)

/-- Per-frame reference processing (used to state claim C1): predict+update
on a frame whose `x` and `y` are both present, predict-only otherwise, with
the filter state threaded through every frame with no reset. -/
def framewise (kf : KF) : List (Row α) → Except Err (KF × List KOutState)
  | [] => .ok (kf, [])
  | r :: rest => do
    let kf' ← step kf (if r.x.isSome && r.y.isSome then some (r.x, r.y) else none)
    let (kf2, outs) ← framewise kf' rest
    .ok (kf2, (kf'.x, kf'.P) :: outs)

/-- The initialization-point selection of `kalman(df)`:
`start_idx = ~(isna(x) | isna(y))`, then the first selected row;
`none` when the selection is empty. -/
def firstValid (rows : List (Row α)) : Option (Row α) :=
  rows.find? fun r => r.x.isSome && r.y.isSome

/-- The filter `kalman(df)` builds for one track:
`kalman_filter(init_x, init_y, dt=1/30)` seeded from the first row with both
coordinates present; `none` when no such row exists (in the source this is
the point where `.iloc[0]` raises an `IndexError`). -/
def trackFilter (rows : List (Row α)) : Option KF :=
  (firstValid rows).map fun r => kalman_filter (r.x.getD 0) (r.y.getD 0) (1/30)

/-- Embedding of `KalmanFilter.rts_smoother` over the forward pass `(x, P)` sequence:
the standard backward recursion of filterpy, using the filter's `F` and `Q`;
a singular predicted covariance raises `LinAlgError`.  (The `[]` inner match
arm is unreachable: the recursive result of a nonempty input is nonempty.)
The smoothed state `x[k] + K @ (x_sm[k+1] - F @ x[k])` is finite exactly
when the filtered state `x[k]` and the next smoothed state are; one NaN
state among them makes every entry NaN (same IEEE absorption as in
`update`), so a NaN forward state poisons the whole smoothed sequence
backward from that frame.  The covariance recursion involves no state and
stays finite. -/
def rts_smoother (kf : KF) : List KOutState → Except Err (List KOutState)
  | [] => .ok []
  | [o] => .ok [o]
  | o :: o' :: rest => do
    let tl ← rts_smoother kf (o' :: rest)
    match tl with
    | [] => .error .valueError
    | t :: _ =>
      let Pp := kf.F * o.2 * kf.F.transpose + kf.Q
      match matInv Pp with
      | none => .error .linAlgError
      | some PpI =>
        let Ksm := o.2 * kf.F.transpose * PpI
        .ok ((match o.1, t.1 with
              | some xk, some xk1 => some (xk + Ksm * (xk1 - kf.F * xk))
              | _, _ => none,
              o.2 + Ksm * (t.2 - Pp) * Ksm.transpose) :: tl)

/-- The twelve columns `kalman(df)` adds to the dataframe.  Each cell is
`Option ℚ` because the columns are float columns created by partial
assignment (pandas fills unassigned rows of a new column with NaN). -/
structure KOut where
  kalman_x : Option ℚ
  kalman_dx_dt : Option ℚ
  kalman_dx_dt_dt : Option ℚ
  kalman_y : Option ℚ
  kalman_dy_dt : Option ℚ
  kalman_dy_dt_dt : Option ℚ
  rts_x : Option ℚ
  rts_dx_dt : Option ℚ
  rts_dx_dt_dt : Option ℚ
  rts_y : Option ℚ
  rts_dy_dt : Option ℚ
  rts_dy_dt_dt : Option ℚ
deriving DecidableEq

/-- The twelve NaN cells a row keeps if no assignment reaches it. -/
def KOut.empty : KOut where
  kalman_x := none
  kalman_dx_dt := none
  kalman_dx_dt_dt := none
  kalman_y := none
  kalman_dy_dt := none
  kalman_dy_dt_dt := none
  rts_x := none
  rts_dx_dt := none
  rts_dx_dt_dt := none
  rts_y := none
  rts_dy_dt := none
  rts_dy_dt_dt := none

/-- All twelve added cells hold a (non-NaN) value. -/
def koutAllSome (k : KOut) : Bool :=
  k.kalman_x.isSome && k.kalman_dx_dt.isSome && k.kalman_dx_dt_dt.isSome &&
  k.kalman_y.isSome && k.kalman_dy_dt.isSome && k.kalman_dy_dt_dt.isSome &&
  k.rts_x.isSome && k.rts_dx_dt.isSome && k.rts_dx_dt_dt.isSome &&
  k.rts_y.isSome && k.rts_dy_dt.isSome && k.rts_dy_dt_dt.isSome

/-- The per-track body of the `kalman(df)` loop: seed the filter at the
first valid row (IndexError if none exists), run the forward filter, run
the RTS smoother, and read the twelve output cells per frame from
`mu[:, i, 0]` and `mu_rts[:, i, 0]` (a NaN state column yields NaN cells). -/
def processTrack (gdf : List (Row α)) : Except Err (List KOut) :=
  match trackFilter gdf with
  | none => .error .indexError
  | some kf => do
    let (kf2, outs) ← run_filter kf gdf
    let sm ← rts_smoother kf2 outs
    .ok ((outs.zip sm).map fun p =>
      { kalman_x := p.1.1.map fun v => v 0 0
        kalman_dx_dt := p.1.1.map fun v => v 1 0
        kalman_dx_dt_dt := p.1.1.map fun v => v 2 0
        kalman_y := p.1.1.map fun v => v 3 0
        kalman_dy_dt := p.1.1.map fun v => v 4 0
        kalman_dy_dt_dt := p.1.1.map fun v => v 5 0
        rts_x := p.2.1.map fun v => v 0 0
        rts_dx_dt := p.2.1.map fun v => v 1 0
        rts_dx_dt_dt := p.2.1.map fun v => v 2 0
        rts_y := p.2.1.map fun v => v 3 0
        rts_dy_dt := p.2.1.map fun v => v 4 0
        rts_dy_dt_dt := p.2.1.map fun v => v 5 0 })

/-- The distinct `trackingId` keys in the order pandas `groupby` visits
them (sorted ascending). -/
def trackKeys (rows : List (Row α)) : List ℤ :=
  List.insertionSort (fun a b : ℤ => a ≤ b) (rows.map fun r => r.trackingId).dedup

/-- One `trackingId` group together with the dataframe index (row position)
of each of its rows; `groupby` preserves the original relative order. -/
def trackGroupIdx (rows : List (Row α)) (k : ℤ) : List (ℕ × Row α) :=
  rows.enum.filter fun p => p.2.trackingId == k

/-- The rows of one `trackingId` group. -/
def trackGroup (rows : List (Row α)) (k : ℤ) : List (Row α) :=
  (trackGroupIdx rows k).map Prod.snd

/-- One iteration of the `kalman(df)` group loop: process the track and
record, per dataframe index, the twelve cells written by the index-aligned
`df.loc[gdf.index, ...] = mu[...]` assignments (pandas raises a
`ValueError` if the assigned array length differed from the group size). -/
def kalmanStep (rows : List (Row α)) (acc : List (ℕ × KOut)) (k : ℤ) :
    Except Err (List (ℕ × KOut)) := do
  let g := trackGroupIdx rows k
  let kouts ← processTrack (g.map Prod.snd)
  if kouts.length = g.length then .ok (acc ++ (g.map Prod.fst).zip kouts)
  else .error .valueError

/-- Embedding of `kalman(df)` from `src/kalman.py`: loop over the `trackingId` groups,
writing the twelve new columns back into the (index-aligned) dataframe, and
return the same dataframe.  The output pairs every original row, in its
original position, with its twelve added cells. -/
def kalman (rows : List (Row α)) : Except Err (List (Row α × KOut)) := do
  let assoc ← (trackKeys rows).foldlM (kalmanStep rows) []
  .ok (rows.enum.map fun p => (p.2, (assoc.lookup p.1).getD KOut.empty))

/-! ### `src/pixelmapper.py` -/

abbrev Mat3 := Matrix (Fin 3) (Fin 3) ℚ
abbrev Pt := ℚ × ℚ

/-- Embedding of `cv.perspectiveTransform` on one point: homogenise, multiply by the
3×3 matrix, dehomogenise.  A vanishing third coordinate has no finite
image (`none`). -/
def perspectiveTransform (M : Mat3) (p : Pt) : Option Pt :=
  let v := M.mulVec ![p.1, p.2, 1]
  if v 2 = 0 then none else some (v 0 / v 2, v 1 / v 2)

/-- The OpenCV point-undistortion routines `PixelMapper.undistort` calls;
external numerical code, taken as opaque pure functions. -/
structure CvBackend where
  undistortPoints : Mat3 → List ℚ → Option Mat3 → List Pt → List Pt
  fisheyeUndistortPoints : Mat3 → List ℚ → Option Mat3 → List Pt → List Pt

/-- The `PixelMapper` object of `src/pixelmapper.py`. -/
structure PixelMapper where
  intrinsic_mtx : Option Mat3
  distortion : List ℚ
  newcameramtx : Option Mat3
  homography : Mat3
  fisheye : Bool

/-- Embedding of `PixelMapper.undistort`: dispatch to the fisheye or planar OpenCV
routine when intrinsics are attached, identity otherwise. -/
def PixelMapper.undistort (cv : CvBackend) (pm : PixelMapper) (X : List Pt) : List Pt :=
  match pm.intrinsic_mtx with
  | some K =>
    if pm.fisheye then cv.fisheyeUndistortPoints K pm.distortion pm.newcameramtx X
    else cv.undistortPoints K pm.distortion pm.newcameramtx X
  | none => X

/-- Embedding of `PixelMapper.__call__(X)`: optionally undistort, then apply the
projective transform to every point.  The method only rebinds a local
variable and never assigns to `self`; the second component of the result is
the object state after the call, returned here to make that observable. -/
def PixelMapper.call (cv : CvBackend) (pm : PixelMapper) (X : List Pt) :
    List (Option Pt) × PixelMapper :=
  let X1 := if pm.intrinsic_mtx.isSome then pm.undistort cv X else X
  (X1.map (perspectiveTransform pm.homography), pm)

/-- Modelled from the spec: the world→pixel inverse `pm.inv` is advertised
in the module docstring of `src/pixelmapper.py` but the method is missing
from the class body; per §4.3 of the spec it "applies the inverse projective
transform only", i.e. `cv.perspectiveTransform` with the homography's
algebraic inverse, with no distortion step. -/
def PixelMapper.inv (pm : PixelMapper) (W : List Pt) : Option (List (Option Pt)) :=
  (matInv pm.homography).map fun Hi => W.map (perspectiveTransform Hi)

/-- Embedding of `_extrinsic_calibration(pts_src, pts_dst)`: call `cv.findHomography`
(RANSAC, threshold 5.0) — an external numerical search, taken here as the
function parameter `findHomography`, which returns `none` or a fitted (not
necessarily invertible) matrix — discard the inlier mask, and return the
matrix with no validation of any kind. -/
def extrinsic_calibration (findHomography : List Pt → List Pt → Option Mat3)
    (pts_src pts_dst : List Pt) : Option Mat3 :=
  findHomography pts_src pts_dst

/-! ## Theorems -/

/-! ### Generic helper lemmas -/

theorem vecSix_zero {β : Type} (a b c d e f : β) : ![a, b, c, d, e, f] 0 = a := rfl

theorem vecSix_one {β : Type} (a b c d e f : β) : ![a, b, c, d, e, f] 1 = b := rfl

theorem vecSix_two {β : Type} (a b c d e f : β) : ![a, b, c, d, e, f] 2 = c := rfl

theorem vecSix_three {β : Type} (a b c d e f : β) : ![a, b, c, d, e, f] 3 = d := rfl

theorem vecSix_four {β : Type} (a b c d e f : β) : ![a, b, c, d, e, f] 4 = e := rfl

theorem vecSix_five {β : Type} (a b c d e f : β) : ![a, b, c, d, e, f] 5 = f := rfl

theorem except_bind_ok {e b c : Type} (x : b) (f : b → Except e c) :
    (Except.ok x >>= f : Except e c) = f x := rfl

theorem except_bind_error {e b c : Type} (err : e) (f : b → Except e c) :
    (Except.error err >>= f : Except e c) = Except.error err := rfl

/-! ### Claim C5: the transition matrix -/

/-- Claim C5: the 6×6 transition matrix built by `kalman_filter` encodes
exact constant-acceleration kinematics per axis for time step `dt`:
position maps to `position + velocity·dt + ½·acceleration·dt²`, velocity
maps to `velocity + acceleration·dt`, and acceleration is unchanged; the
x-chain (components 0–2) and the y-chain (components 3–5) are decoupled —
each output component depends only on its own chain's components. -/
theorem transition_matrix_constant_acceleration (sx sy dt : ℚ) (s : Fin 6 → ℚ) :
    (kalman_filter sx sy dt).F.mulVec s =
      ![s 0 + s 1 * dt + s 2 * ((1/2) * dt * dt),
        s 1 + s 2 * dt,
        s 2,
        s 3 + s 4 * dt + s 5 * ((1/2) * dt * dt),
        s 4 + s 5 * dt,
        s 5] := by
  funext i
  fin_cases i <;>
    simp [-Matrix.cons_val', kalman_filter, Matrix.mulVec, Matrix.dotProduct,
      Fin.sum_univ_six, vecSix_zero, vecSix_one, vecSix_two, vecSix_three,
      vecSix_four, vecSix_five] <;>
    ring

/-! ### Claim C7: the initial state and covariance -/

/-- Splitting form of a successful `find?`: the found element is the first
one satisfying the predicate. -/
theorem find?_split {β : Type} {p : β → Bool} {l : List β} {a : β}
    (h : l.find? p = some a) :
    ∃ l1 l2, l = l1 ++ a :: l2 ∧ p a = true ∧ ∀ b ∈ l1, p b = false := by
  rcases List.find?_eq_some.mp h with ⟨hpa, l1, l2, hsplit, hprev⟩
  exact ⟨l1, l2, hsplit, hpa, fun b hb => by simpa using hprev b hb⟩

/-- Claim C7: the filter the orchestrator builds for a track is seeded at
the first row of the track whose `x` and `y` are both present; its initial
state is the finite column with that row's `(x, y)` as position and zero
velocity and acceleration on both axes, and its initial covariance is a
diagonal matrix (`eye(6) * 15`). -/
theorem initial_state_and_covariance (gdf : List (Row α)) (kf : KF)
    (h : trackFilter gdf = some kf) :
    ∃ pre r post a b,
      gdf = pre ++ r :: post ∧
      (∀ s ∈ pre, ¬(s.x.isSome = true ∧ s.y.isSome = true)) ∧
      r.x = some a ∧ r.y = some b ∧
      kf.x = some (colv ![a, 0, 0, b, 0, 0]) ∧
      kf.P = Matrix.diagonal (fun _ => (15 : ℚ)) := by
  rcases Option.map_eq_some'.mp h with ⟨r, hfind, hkf⟩
  rcases find?_split hfind with ⟨pre, post, hsplit, hpr, hprev⟩
  have hpr' : r.x.isSome = true ∧ r.y.isSome = true := by simpa using hpr
  rcases hpr' with ⟨hx, hy⟩
  rcases Option.isSome_iff_exists.mp hx with ⟨a, hxa⟩
  rcases Option.isSome_iff_exists.mp hy with ⟨b, hyb⟩
  refine ⟨pre, r, post, a, b, hsplit, ?_, hxa, hyb, ?_, ?_⟩
  · intro s hs
    have := hprev s hs
    simp only [Bool.and_eq_true] at this ⊢
    intro hc
    rw [hc.1, hc.2] at this
    simp at this
  · rw [← hkf]
    simp [kalman_filter, hxa, hyb]
  · rw [← hkf]
    funext i j
    by_cases hij : i = j <;>
      simp [kalman_filter, Matrix.one_apply, Matrix.diagonal, hij]

unseal Rat.add Rat.mul Rat.inv Rat.sub in
theorem initial_state_and_covariance_witness :
    ∃ pre r post a b,
      [(⟨1, 0, none, some 9, ()⟩ : Row Unit), ⟨1, 1, some 5, some 7, ()⟩] = pre ++ r :: post ∧
      (∀ s ∈ pre, ¬(s.x.isSome = true ∧ s.y.isSome = true)) ∧
      r.x = some a ∧ r.y = some b ∧
      (kalman_filter 5 7 (1/30)).x = some (colv ![a, 0, 0, b, 0, 0]) ∧
      (kalman_filter 5 7 (1/30)).P = Matrix.diagonal (fun _ => (15 : ℚ)) :=
  initial_state_and_covariance
    [(⟨1, 0, none, some 9, ()⟩ : Row Unit), ⟨1, 1, some 5, some 7, ()⟩]
    (kalman_filter 5 7 (1/30)) (by decide)

/-! ### Claim C8: `PixelMapper.__call__` is deterministic and stateless -/

/-- Claim C8: the forward transform is deterministic and stateless: a call
leaves the `PixelMapper` object exactly as it was, and a second call on the
same input batch (against the post-call object state) returns the identical
output and again leaves the object unchanged. -/
theorem forward_stateless_deterministic (cv : CvBackend) (pm : PixelMapper) (X : List Pt) :
    (pm.call cv X).2 = pm ∧
    ((pm.call cv X).2.call cv X).1 = (pm.call cv X).1 ∧
    ((pm.call cv X).2.call cv X).2 = pm :=
  ⟨rfl, rfl, rfl⟩

/-! ### Claim C4: no degeneracy check in `_extrinsic_calibration` -/

/-- Counterexample to claim C4: on a collinear correspondence set (all
points on the diagonal), with the external `cv.findHomography` returning a
rank-deficient matrix, `_extrinsic_calibration` raises nothing and returns
the degenerate matrix silently: its result type has no error channel and
no `DegenerateHomographyError` exists anywhere in the code. -/
theorem extrinsic_calibration_silent_degenerate_cex :
    extrinsic_calibration (fun _ _ => some (!![1, 1, 0; 1, 1, 0; 0, 0, 0] : Mat3))
        [((0 : ℚ), (0 : ℚ)), (1, 1), (2, 2), (3, 3)]
        [((0 : ℚ), (0 : ℚ)), (1, 1), (2, 2), (3, 3)] =
      some !![1, 1, 0; 1, 1, 0; 0, 0, 0] ∧
    (!![1, 1, 0; 1, 1, 0; 0, 0, 0] : Mat3).det = 0 := by
  constructor
  · rfl
  · rw [Matrix.det_fin_three]
    norm_num

/-- Claim C4 amended: `_extrinsic_calibration` performs no degeneracy
detection at all — it returns `cv.findHomography`'s result unchanged
(whatever matrix, or `None`, the library produced), so a non-invertible fit
is passed to the caller as a silently wrong answer instead of failing. -/
theorem extrinsic_calibration_no_degeneracy_check :
    (∀ (f : List Pt → List Pt → Option Mat3) (src dst : List Pt),
        extrinsic_calibration f src dst = f src dst) ∧
    extrinsic_calibration (fun _ _ => some (!![2, 2, 0; 1, 1, 0; 0, 0, 1] : Mat3))
        [((0 : ℚ), (0 : ℚ)), (1, 1), (2, 2), (5, 5)]
        [((0 : ℚ), (0 : ℚ)), (1, 1), (2, 2), (5, 5)] =
      some !![2, 2, 0; 1, 1, 0; 0, 0, 1] ∧
    (!![2, 2, 0; 1, 1, 0; 0, 0, 1] : Mat3).det = 0 := by
  refine ⟨fun f src dst => rfl, rfl, ?_⟩
  rw [Matrix.det_fin_three]
  norm_num

/-! ### The run partition of `run_filter` -/

theorem isNone_eq_false_of_isSome {β : Type} {o : Option β} (h : o.isSome = true) :
    o.isNone = false := by
  cases o <;> simp_all

theorem chunkRunsF_nil (n : ℕ) : chunkRunsF n ([] : List (Row α)) = [] := by
  cases n <;> rfl

theorem chunkRunsF_congr (n : ℕ) :
    ∀ (m : ℕ) (l : List (Row α)), l.length ≤ n → l.length ≤ m →
      chunkRunsF n l = chunkRunsF m l := by
  induction n with
  | zero =>
    intro m l hn _
    have hl : l = [] := by cases l <;> simp_all
    subst hl
    rw [chunkRunsF_nil, chunkRunsF_nil]
  | succ n ih =>
    intro m l hn hm
    cases l with
    | nil => rw [chunkRunsF_nil, chunkRunsF_nil]
    | cons r rs =>
      cases m with
      | zero => simp at hm
      | succ m =>
        simp only [chunkRunsF]
        congr 1
        have hd : (rs.dropWhile fun s => s.x.isNone == r.x.isNone).length ≤ rs.length :=
          (List.dropWhile_sublist _).length_le
        simp only [List.length_cons] at hn hm
        exact ih m _ (by omega) (by omega)

theorem chunkRuns_nil : chunkRuns ([] : List (Row α)) = [] := rfl

theorem chunkRuns_cons (r : Row α) (rs : List (Row α)) :
    chunkRuns (r :: rs) =
      (r :: rs.takeWhile fun s => s.x.isNone == r.x.isNone) ::
        chunkRuns (rs.dropWhile fun s => s.x.isNone == r.x.isNone) := by
  show chunkRunsF (r :: rs).length (r :: rs) = _
  simp only [List.length_cons, chunkRunsF]
  congr 1
  exact chunkRunsF_congr rs.length _ _ (List.dropWhile_sublist _).length_le (Nat.le_refl _)

theorem chunkRuns_flatten_aux (n : ℕ) :
    ∀ l : List (Row α), l.length ≤ n → (chunkRuns l).flatten = l := by
  induction n with
  | zero =>
    intro l hn
    have hl : l = [] := by cases l <;> simp_all
    subst hl
    rfl
  | succ n ih =>
    intro l hn
    cases l with
    | nil => rfl
    | cons r rs =>
      rw [chunkRuns_cons]
      have hd : (rs.dropWhile fun s => s.x.isNone == r.x.isNone).length ≤ rs.length :=
        (List.dropWhile_sublist _).length_le
      simp only [List.length_cons] at hn
      have hih := ih (rs.dropWhile fun s => s.x.isNone == r.x.isNone) (by omega)
      simp only [List.flatten_cons, hih, List.cons_append,
        List.takeWhile_append_dropWhile]

/-- The groups of `run_filter` concatenate back, in order, to the track. -/
theorem chunkRuns_flatten (l : List (Row α)) : (chunkRuns l).flatten = l :=
  chunkRuns_flatten_aux l.length l (Nat.le_refl _)

theorem chunkRuns_shape_aux (n : ℕ) :
    ∀ l : List (Row α), l.length ≤ n → ∀ g ∈ chunkRuns l,
      ∃ r t, g = r :: t ∧ ∀ s ∈ t, s.x.isNone = r.x.isNone := by
  induction n with
  | zero =>
    intro l hn
    have hl : l = [] := by cases l <;> simp_all
    subst hl
    simp [chunkRuns_nil]
  | succ n ih =>
    intro l hn g hg
    cases l with
    | nil => simp [chunkRuns_nil] at hg
    | cons r rs =>
      rw [chunkRuns_cons] at hg
      rcases List.mem_cons.mp hg with hg | hg
      · refine ⟨r, _, hg, fun s hs => ?_⟩
        have := List.mem_takeWhile_imp hs
        simpa using this
      · have hd : (rs.dropWhile fun s => s.x.isNone == r.x.isNone).length ≤ rs.length :=
          (List.dropWhile_sublist _).length_le
        simp only [List.length_cons] at hn
        exact ih _ (by omega) g hg

/-- Every group is nonempty and has constant `isna(x)` status, equal to the
status of its first row. -/
theorem chunkRuns_shape (l : List (Row α)) :
    ∀ g ∈ chunkRuns l, ∃ r t, g = r :: t ∧ ∀ s ∈ t, s.x.isNone = r.x.isNone :=
  chunkRuns_shape_aux l.length l (Nat.le_refl _)

theorem dropWhile_head_not {β : Type} (p : β → Bool) :
    ∀ (l : List β) (b : β) (t : List β), l.dropWhile p = b :: t → p b = false := by
  intro l
  induction l with
  | nil => intro b t h; simp [List.dropWhile] at h
  | cons x xs ih =>
    intro b t h
    simp only [List.dropWhile_cons] at h
    by_cases hx : p x
    · rw [if_pos hx] at h
      exact ih b t h
    · rw [if_neg hx] at h
      cases h
      simpa using hx

theorem chunkRuns_chain_aux (nn : ℕ) :
    ∀ l : List (Row α), l.length ≤ nn →
      List.Chain' (fun g g' => ∀ a ∈ g.head?, ∀ b ∈ g'.head?, ¬a.x.isNone = b.x.isNone)
        (chunkRuns l) := by
  induction nn with
  | zero =>
    intro l hn
    have hl : l = [] := by cases l <;> simp_all
    subst hl
    simp [chunkRuns_nil]
  | succ nn ih =>
    intro l hn
    cases l with
    | nil => simp [chunkRuns_nil]
    | cons r rs =>
      rw [chunkRuns_cons]
      have hd : (rs.dropWhile fun s => s.x.isNone == r.x.isNone).length ≤ rs.length :=
        (List.dropWhile_sublist _).length_le
      simp only [List.length_cons] at hn
      refine List.chain'_cons'.mpr ⟨?_, ih _ (by omega)⟩
      intro y hy a ha b hb
      cases hdw : rs.dropWhile fun s => s.x.isNone == r.x.isNone with
      | nil => rw [hdw, chunkRuns_nil] at hy; simp at hy
      | cons d ds =>
        rw [hdw, chunkRuns_cons] at hy
        simp only [List.head?_cons, Option.mem_def, Option.some.injEq] at hy
        subst hy
        simp only [List.head?_cons, Option.mem_def, Option.some.injEq] at ha hb
        subst ha
        subst hb
        have hpd : (d.x.isNone == r.x.isNone) = false := dropWhile_head_not _ rs d ds hdw
        intro hcontra
        rw [hcontra] at hpd
        simp at hpd

/-- Adjacent groups have opposite `isna(x)` status: the runs are maximal. -/
theorem chunkRuns_chain (l : List (Row α)) :
    List.Chain' (fun g g' => ∀ a ∈ g.head?, ∀ b ∈ g'.head?, ¬a.x.isNone = b.x.isNone)
      (chunkRuns l) :=
  chunkRuns_chain_aux l.length l (Nat.le_refl _)

/-! ### The forward pass equals gap-aware per-frame processing -/

theorem framewise_append (kf : KF) (a b : List (Row α)) :
    framewise kf (a ++ b) =
      (framewise kf a).bind fun p =>
        (framewise p.1 b).map fun q => (q.1, p.2 ++ q.2) := by
  induction a generalizing kf with
  | nil =>
    simp only [List.nil_append]
    cases h : framewise kf b with
    | error e => simp [framewise, h, Except.bind, Except.map]
    | ok q => simp [framewise, h, Except.bind, Except.map]
  | cons r rs ih =>
    simp only [List.cons_append, framewise]
    cases hs : step kf (if r.x.isSome && r.y.isSome then some (r.x, r.y) else none) with
    | error e => simp [hs, except_bind_error, Except.bind, Except.map]
    | ok kf' =>
      simp only [hs, except_bind_ok, List.append_eq]
      rw [ih]
      cases h1 : framewise kf' rs with
      | error e => simp [except_bind_error, Except.bind, Except.map]
      | ok p =>
        cases h2 : framewise p.1 b with
        | error e => simp [h2, except_bind_ok, except_bind_error, Except.bind, Except.map]
        | ok q => simp [h2, except_bind_ok, except_bind_error, Except.bind, Except.map]

theorem batch_replicate_missing (g : List (Row α)) :
    ∀ kf : KF, (∀ s ∈ g, s.x = none ∧ s.y = none) →
      batch_filter kf (List.replicate g.length none) = framewise kf g := by
  induction g with
  | nil => intro kf _; rfl
  | cons r rs ih =>
    intro kf h
    have hr := h r (List.mem_cons_self r rs)
    have hcond : (if (r.x.isSome && r.y.isSome) = true then some (r.x, r.y) else none) = none := by
      rw [hr.1, hr.2]
      simp
    simp only [List.length_cons, List.replicate_succ, batch_filter, framewise, hcond,
      step, except_bind_ok]
    rw [ih (predict kf) fun s hs => h s (List.mem_cons_of_mem r hs)]

theorem batch_map_present (g : List (Row α)) :
    ∀ kf : KF, (∀ s ∈ g, s.x.isSome = true ∧ s.y.isSome = true) →
      batch_filter kf (g.map fun s => some (s.x, s.y)) = framewise kf g := by
  induction g with
  | nil => intro kf _; rfl
  | cons r rs ih =>
    intro kf h
    have hr := h r (List.mem_cons_self r rs)
    have hcond : (if (r.x.isSome && r.y.isSome) = true then some (r.x, r.y) else none) =
        some (r.x, r.y) := by
      rw [hr.1, hr.2]
      simp
    simp only [List.map_cons, batch_filter, framewise, hcond]
    cases hs : step kf (some (r.x, r.y)) with
    | error e => simp [hs, except_bind_error]
    | ok kf' =>
      simp only [hs, except_bind_ok]
      rw [ih kf' fun s hs' => h s (List.mem_cons_of_mem r hs')]

theorem runChunks_framewise_aux (n : ℕ) :
    ∀ (l : List (Row α)) (kf : KF), l.length ≤ n →
      (∀ r ∈ l, r.x.isSome = r.y.isSome) →
      runChunks kf (chunkRuns l) = framewise kf l := by
  induction n with
  | zero =>
    intro l kf hn _
    have hl : l = [] := by cases l <;> simp_all
    subst hl
    rfl
  | succ n ih =>
    intro l kf hn hwf
    cases l with
    | nil => rfl
    | cons r rs =>
      rw [chunkRuns_cons]
      have hd : (rs.dropWhile fun s => s.x.isNone == r.x.isNone).length ≤ rs.length :=
        (List.dropWhile_sublist _).length_le
      simp only [List.length_cons] at hn
      have hmemtk : ∀ s ∈ rs.takeWhile fun s => s.x.isNone == r.x.isNone, s ∈ r :: rs :=
        fun s hs => List.mem_cons_of_mem r ((List.takeWhile_sublist _).subset hs)
      have hmemdw : ∀ s ∈ rs.dropWhile fun s => s.x.isNone == r.x.isNone, s ∈ r :: rs :=
        fun s hs => List.mem_cons_of_mem r ((List.dropWhile_sublist _).subset hs)
      have hstat : ∀ s ∈ rs.takeWhile fun s => s.x.isNone == r.x.isNone,
          s.x.isNone = r.x.isNone := by
        intro s hs
        simpa using List.mem_takeWhile_imp hs
      have htake : batch_filter kf (planOf (r :: rs.takeWhile fun s => s.x.isNone == r.x.isNone)) =
          framewise kf (r :: rs.takeWhile fun s => s.x.isNone == r.x.isNone) := by
        by_cases hx : r.x.isNone = true
        · have hxy : r.x = none ∧ r.y = none := by
            have h1 : r.x = none := Option.isNone_iff_eq_none.mp hx
            have h2 := hwf r (List.mem_cons_self r rs)
            rw [h1] at h2
            exact ⟨h1, Option.not_isSome_iff_eq_none.mp (by simp [← h2])⟩
          have hplan : planOf (r :: rs.takeWhile fun s => s.x.isNone == r.x.isNone) =
              List.replicate (r :: rs.takeWhile fun s => s.x.isNone == r.x.isNone).length none := by
            simp [planOf, hx]
          rw [hplan]
          apply batch_replicate_missing
          intro s hs
          rcases List.mem_cons.mp hs with hh | hh
          · subst hh; exact hxy
          · have hsx : s.x = none := by
              have := hstat s hh
              rw [hx] at this
              exact Option.isNone_iff_eq_none.mp this
            have h2 := hwf s (hmemtk s hh)
            rw [hsx] at h2
            exact ⟨hsx, Option.not_isSome_iff_eq_none.mp (by simp [← h2])⟩
        · have hx' : r.x.isNone = false := by revert hx; cases r.x <;> simp
          have hxs : r.x.isSome = true := by
            cases hrx : r.x
            · rw [hrx] at hx'; simp at hx'
            · simp
          have hys : r.y.isSome = true := by rw [← hwf r (List.mem_cons_self r rs)]; exact hxs
          have hplan : planOf (r :: rs.takeWhile fun s => s.x.isNone == r.x.isNone) =
              (r :: rs.takeWhile fun s => s.x.isNone == r.x.isNone).map
                fun s => some (s.x, s.y) := by
            simp [planOf, hx', isNone_eq_false_of_isSome hys]
          rw [hplan]
          apply batch_map_present
          intro s hs
          rcases List.mem_cons.mp hs with hh | hh
          · subst hh; exact ⟨hxs, hys⟩
          · have hsx : s.x.isSome = true := by
              have h1 := hstat s hh
              rw [hx'] at h1
              cases hsx' : s.x
              · rw [hsx'] at h1; simp at h1
              · simp
            exact ⟨hsx, by rw [← hwf s (hmemtk s hh)]; exact hsx⟩
      simp only [runChunks]
      rw [htake]
      have hrw : r :: rs = (r :: rs.takeWhile fun s => s.x.isNone == r.x.isNone) ++
          rs.dropWhile fun s => s.x.isNone == r.x.isNone := by
        simp [List.takeWhile_append_dropWhile]
      conv_rhs => rw [hrw]
      rw [framewise_append]
      cases hfw : framewise kf (r :: rs.takeWhile fun s => s.x.isNone == r.x.isNone) with
      | error e => simp [hfw, except_bind_error, Except.bind]
      | ok p =>
        obtain ⟨kf1, o1⟩ := p
        simp only [hfw, except_bind_ok, Except.bind]
        rw [ih _ kf1 (by omega) fun s hs => hwf s (hmemdw s hs)]
        cases h2 : framewise kf1 (rs.dropWhile fun s => s.x.isNone == r.x.isNone) with
        | error e => simp [h2, except_bind_error, Except.map]
        | ok q => simp [h2, except_bind_ok, Except.map]

/-- Claim C1: for a track whose rows each have `x` present exactly when `y`
is present, the forward filter partitions the ordered frame sequence into
maximal contiguous runs of constant measurement-presence status (the groups
concatenate to the track, each has constant status, adjacent groups have
opposite status), and processing those runs — predict+update per frame on
present runs, predict-only per frame on missing runs — with the filter
state and covariance threaded across run boundaries without any reset is
exactly per-frame gap-aware processing of the whole track: in particular a
missing run's final state is the prior of the next present run. -/
theorem run_filter_runs_and_continuity (kf : KF) (rows : List (Row α))
    (hne : rows ≠ []) (hwf : ∀ r ∈ rows, r.x.isSome = r.y.isSome) :
    (chunkRuns rows).flatten = rows ∧
    (∀ g ∈ chunkRuns rows, ∃ r t, g = r :: t ∧
        ∀ s ∈ g, ((s.x.isSome ∧ s.y.isSome) ↔ (r.x.isSome ∧ r.y.isSome))) ∧
    List.Chain' (fun g g' => ∀ a ∈ g.head?, ∀ b ∈ g'.head?, ¬a.x.isNone = b.x.isNone)
      (chunkRuns rows) ∧
    run_filter kf rows = framewise kf rows := by
  refine ⟨chunkRuns_flatten rows, ?_, chunkRuns_chain rows, ?_⟩
  · intro g hg
    rcases chunkRuns_shape rows g hg with ⟨r, t, hrt, hstat⟩
    refine ⟨r, t, hrt, ?_⟩
    intro s hs
    have hsrow : ∀ u, u ∈ g → u ∈ rows := by
      intro u hu
      rw [← chunkRuns_flatten rows]
      exact List.mem_flatten.mpr ⟨g, hg, hu⟩
    have hxeq : s.x.isNone = r.x.isNone := by
      rw [hrt] at hs
      rcases List.mem_cons.mp hs with hh | hh
      · rw [hh]
      · exact hstat s hh
    have hsx : s.x.isSome = r.x.isSome := by
      cases hs' : s.x <;> cases hr' : r.x <;> rw [hs', hr'] at hxeq <;> simp_all
    have h1 := hwf s (hsrow s hs)
    have h2 := hwf r (hsrow r (hrt ▸ List.mem_cons_self r t))
    constructor
    · rintro ⟨ha, _⟩
      rw [hsx] at ha
      exact ⟨ha, by rw [← h2]; exact ha⟩
    · rintro ⟨ha, _⟩
      rw [← hsx] at ha
      exact ⟨ha, by rw [← h1]; exact ha⟩
  · unfold run_filter
    rw [if_neg (by simpa using hne)]
    exact runChunks_framewise_aux rows.length rows kf (Nat.le_refl _) hwf

/-- Witness for C1 at a concrete three-frame track with an interior gap. -/
theorem run_filter_runs_and_continuity_witness :
    run_filter (kalman_filter 1 2 1)
        [(⟨1, 0, some 1, some 2, ()⟩ : Row Unit), ⟨1, 1, none, none, ()⟩,
          ⟨1, 2, some 4, some 5, ()⟩] =
      framewise (kalman_filter 1 2 1)
        [⟨1, 0, some 1, some 2, ()⟩, ⟨1, 1, none, none, ()⟩, ⟨1, 2, some 4, some 5, ()⟩] :=
  (run_filter_runs_and_continuity (kalman_filter 1 2 1)
    [⟨1, 0, some 1, some 2, ()⟩, ⟨1, 1, none, none, ()⟩, ⟨1, 2, some 4, some 5, ()⟩]
    (by decide) (by decide)).2.2.2

/-! ### Claim C10: the partition looks at `x` only, a run at its head only -/

theorem runChunks_singleton (kf : KF) (g : List (Row α)) :
    runChunks kf [g] = batch_filter kf (planOf g) := by
  cases hb : batch_filter kf (planOf g) with
  | error e => simp [runChunks, hb, except_bind_error, Except.bind]
  | ok p => simp [runChunks, hb, except_bind_ok, Except.bind]

/-- Claim C10: the run partition of `run_filter` is computed from the
missing-status of the `x` column alone, and a whole run is classified by
its first row only.  Hence on a track whose rows all have `x` present and
whose first row also has `y` present, the entire track forms one "present"
run and every row — including a row whose `y` is missing (NaN) — is fed to
the predict+update path of `batch_filter` as a measurement, rather than
being handled as a predict-only gap. -/
theorem run_filter_feeds_mixed_run (kf : KF) (rows : List (Row α)) (hne : rows ≠ [])
    (hx : ∀ r ∈ rows, r.x.isSome = true)
    (hy : ∀ r ∈ rows.head?, r.y.isSome = true) :
    run_filter kf rows = batch_filter kf (rows.map fun s => some (s.x, s.y)) := by
  cases rows with
  | nil => exact absurd rfl hne
  | cons r rs =>
    have hxr : r.x.isSome = true := hx r (List.mem_cons_self r rs)
    have hyr : r.y.isSome = true := hy r (by simp)
    have htk : (rs.takeWhile fun s => s.x.isNone == r.x.isNone) = rs :=
      List.takeWhile_eq_self_iff.mpr fun s hs => by
        rw [isNone_eq_false_of_isSome (hx s (List.mem_cons_of_mem r hs)),
          isNone_eq_false_of_isSome hxr]
        rfl
    have hdp : (rs.dropWhile fun s => s.x.isNone == r.x.isNone) = [] :=
      List.dropWhile_eq_nil_iff.mpr fun s hs => by
        rw [isNone_eq_false_of_isSome (hx s (List.mem_cons_of_mem r hs)),
          isNone_eq_false_of_isSome hxr]
        rfl
    have hplan : planOf (r :: rs) = (r :: rs).map fun s => some (s.x, s.y) := by
      simp [planOf, isNone_eq_false_of_isSome hxr, isNone_eq_false_of_isSome hyr]
    unfold run_filter
    rw [if_neg (by simp)]
    rw [chunkRuns_cons, htk, hdp, chunkRuns_nil, runChunks_singleton, hplan]

/-- Witness for C10: a two-row track whose second row has `x` present but
`y` missing; both rows are fed to the measurement-update step. -/
theorem run_filter_feeds_mixed_run_witness :
    run_filter (kalman_filter 1 2 1)
        [(⟨7, 0, some 1, some 2, ()⟩ : Row Unit), ⟨7, 1, some 3, none, ()⟩] =
      batch_filter (kalman_filter 1 2 1)
        [some (some 1, some 2), some (some 3, none)] :=
  run_filter_feeds_mixed_run (kalman_filter 1 2 1)
    [⟨7, 0, some 1, some 2, ()⟩, ⟨7, 1, some 3, none, ()⟩]
    (by decide) (by decide) (by decide)

/-! ### Claim C3: failure mode of an all-missing track -/

theorem except_isOk_error {e b : Type} (err : e) :
    (Except.error err : Except e b).isOk = false := rfl

theorem except_isOk_ok {e b : Type} (x : b) :
    (Except.ok x : Except e b).isOk = true := rfl

/-- Claim C3 amended: running the per-track pipeline on a track in which no
frame has both `x` and `y` present fails — but with the generic pandas
`IndexError` from `.iloc[0]` on the empty valid-row selection, not with a
dedicated `UninitializedTrackError` (no such error type exists anywhere in
the code). -/
theorem uninitialized_track_raises_index_error (gdf : List (Row α))
    (h : ∀ r ∈ gdf, ¬(r.x.isSome = true ∧ r.y.isSome = true)) :
    processTrack gdf = .error .indexError := by
  have hfv : firstValid gdf = none := by
    unfold firstValid
    rw [List.find?_eq_none]
    intro r hr
    simp only [Bool.and_eq_true]
    exact h r hr
  simp [processTrack, trackFilter, hfv]

/-- Witness for the amended C3 at a concrete track whose single row has a
present `y` but a missing `x`. -/
theorem uninitialized_track_raises_index_error_witness :
    processTrack [(⟨1, 0, none, some 2, ()⟩ : Row Unit)] = .error .indexError :=
  uninitialized_track_raises_index_error [⟨1, 0, none, some 2, ()⟩] (by decide)

/-- Counterexample to claim C3 as stated: on a track with no present
measurement the pipeline fails with `IndexError`, which is not the
`UninitializedTrackError` the claim names (the embedded code never
constructs `Err.uninitializedTrack`). -/
theorem uninitialized_track_error_cex :
    processTrack [(⟨1, 0, none, none, ()⟩ : Row Unit)] = .error .indexError ∧
    Err.indexError ≠ Err.uninitializedTrack := by
  exact ⟨by decide, by decide⟩

/-! ### Claim C2: no per-track failure isolation in `kalman` -/

theorem foldlM_kalmanStep_fails (rows : List (Row α)) (k : ℤ)
    (hfail : (processTrack (trackGroup rows k)).isOk = false) :
    ∀ (keys : List ℤ) (acc : List (ℕ × KOut)), k ∈ keys →
      (keys.foldlM (kalmanStep rows) acc).isOk = false := by
  intro keys
  induction keys with
  | nil => intro acc hk; simp at hk
  | cons k' ks ih =>
    intro acc hk
    simp only [List.foldlM_cons]
    cases hstep : kalmanStep rows acc k' with
    | error e => simp [hstep, except_bind_error, except_isOk_error]
    | ok acc' =>
      rcases List.mem_cons.mp hk with hk' | hk'
      · exfalso
        subst hk'
        unfold trackGroup at hfail
        simp only [kalmanStep] at hstep
        cases hpt : processTrack ((trackGroupIdx rows k).map Prod.snd) with
        | error e => rw [hpt] at hstep; simp [except_bind_error] at hstep
        | ok kouts => rw [hpt] at hfail; simp [except_isOk_ok] at hfail
      · simp only [hstep, except_bind_ok]
        exact ih acc' hk'

/-- Claim C2 amended: `kalman` contains no error handling at all: if
processing any single track fails, the error propagates out of the group
loop and the whole batch call fails, producing no output for any track —
there is no catching, no logging, and no skipping of the bad track. -/
theorem kalman_no_partial_failure_isolation (rows : List (Row α)) (k : ℤ)
    (hk : k ∈ trackKeys rows)
    (hfail : (processTrack (trackGroup rows k)).isOk = false) :
    (kalman rows).isOk = false := by
  unfold kalman
  have hff := foldlM_kalmanStep_fails rows k hfail (trackKeys rows) [] hk
  cases hf : (trackKeys rows).foldlM (kalmanStep rows) [] with
  | error e => simp [hf, except_bind_error, except_isOk_error]
  | ok assoc => rw [hf] at hff; simp [except_isOk_ok] at hff

/-- Witness for the amended C2: a batch with one unprocessable track (no
valid measurement) and one good track fails as a whole. -/
theorem kalman_no_partial_failure_isolation_witness :
    (kalman [(⟨1, 0, none, none, ()⟩ : Row Unit), ⟨2, 0, some 5, some 6, ()⟩]).isOk = false :=
  kalman_no_partial_failure_isolation
    [⟨1, 0, none, none, ()⟩, ⟨2, 0, some 5, some 6, ()⟩] 1 (by decide) (by decide)

set_option maxRecDepth 100000 in
unseal Rat.add Rat.mul Rat.inv Rat.sub in
/-- Counterexample to claim C2 as stated: in a two-track batch whose first
track has no valid measurement, the whole `kalman` call returns the first
track's `IndexError` — the second track, which on its own is processed
successfully, is not in any output, so the failing track is not skipped and
processing does not continue. -/
theorem kalman_batch_abort_cex :
    kalman [(⟨3, 0, none, none, ()⟩ : Row Unit), ⟨4, 0, some 5, some 6, ()⟩] =
      .error .indexError ∧
    (kalman [(⟨4, 0, some 5, some 6, ()⟩ : Row Unit)]).isOk = true := by
  exact ⟨by decide, by decide⟩

/-! ### Claim C9: frame effect of `kalman` on the dataframe -/

theorem predict_x_isSome (kf : KF) : (predict kf).x.isSome = kf.x.isSome := by
  cases h : kf.x <;> simp [predict, h]

theorem update_x_some (kf : KF) (z : Meas) (kf' : KF)
    (hx : kf.x.isSome = true) (h1 : z.1.isSome = true) (h2 : z.2.isSome = true)
    (h : update kf z = .ok kf') : kf'.x.isSome = true := by
  obtain ⟨z1, z2⟩ := z
  rcases Option.isSome_iff_exists.mp hx with ⟨v, hv⟩
  rcases Option.isSome_iff_exists.mp h1 with ⟨a, ha⟩
  rcases Option.isSome_iff_exists.mp h2 with ⟨b, hb⟩
  have ha' : z1 = some a := ha
  have hb' : z2 = some b := hb
  simp only [update] at h
  cases hi : inv2 (kf.H * (kf.P * kf.H.transpose) + kf.R) with
  | none => rw [hi] at h; simp at h
  | some SI =>
    rw [hi] at h
    rw [← Except.ok.inj h, hv, ha', hb']
    rfl

theorem step_x_some (kf : KF) (oz : Option Meas) (kf' : KF)
    (hx : kf.x.isSome = true)
    (hoz : ∀ z, oz = some z → z.1.isSome = true ∧ z.2.isSome = true)
    (h : step kf oz = .ok kf') : kf'.x.isSome = true := by
  cases oz with
  | none =>
    rw [← Except.ok.inj h, predict_x_isSome]
    exact hx
  | some z =>
    rcases hoz z rfl with ⟨h1, h2⟩
    exact update_x_some (predict kf) z kf' (by rw [predict_x_isSome]; exact hx) h1 h2 h

theorem framewise_x_some :
    ∀ (rows : List (Row α)) (kf kf2 : KF) (outs : List KOutState),
      kf.x.isSome = true → framewise kf rows = .ok (kf2, outs) →
      (∀ o ∈ outs, o.1.isSome = true) ∧ kf2.x.isSome = true := by
  intro rows
  induction rows with
  | nil =>
    intro kf kf2 outs hx h
    injection Except.ok.inj h with hk ho
    refine ⟨?_, by rw [← hk]; exact hx⟩
    rw [← ho]
    simp
  | cons r rs ih =>
    intro kf kf2 outs hx h
    simp only [framewise] at h
    cases hs : step kf (if r.x.isSome && r.y.isSome then some (r.x, r.y) else none) with
    | error e => rw [hs] at h; simp [except_bind_error] at h
    | ok kf' =>
      rw [hs] at h
      simp only [except_bind_ok] at h
      cases hf2 : framewise kf' rs with
      | error e => rw [hf2] at h; simp [except_bind_error] at h
      | ok p =>
        obtain ⟨kfr, outsr⟩ := p
        rw [hf2] at h
        simp only [except_bind_ok] at h
        injection Except.ok.inj h with hk ho
        have hkf'x : kf'.x.isSome = true := by
          refine step_x_some kf _ kf' hx ?_ hs
          intro z hz
          by_cases hc : (r.x.isSome && r.y.isSome) = true
          · rw [if_pos hc] at hz
            rw [← Option.some.inj hz]
            simpa using hc
          · rw [if_neg hc] at hz
            exact absurd hz (by simp)
        obtain ⟨hrec, hkfr⟩ := ih kf' kfr outsr hkf'x hf2
        refine ⟨?_, by rw [← hk]; exact hkfr⟩
        intro o hoo
        rw [← ho] at hoo
        rcases List.mem_cons.mp hoo with ho1 | ho1
        · rw [ho1]
          exact hkf'x
        · exact hrec o ho1

theorem run_filter_x_some (kf : KF) (rows : List (Row α)) (kf2 : KF)
    (outs : List KOutState) (hx : kf.x.isSome = true)
    (hwf : ∀ r ∈ rows, r.x.isSome = r.y.isSome)
    (h : run_filter kf rows = .ok (kf2, outs)) :
    ∀ o ∈ outs, o.1.isSome = true := by
  unfold run_filter at h
  by_cases he : rows.isEmpty
  · rw [if_pos he] at h
    simp at h
  · rw [if_neg he] at h
    rw [runChunks_framewise_aux rows.length rows kf (Nat.le_refl _) hwf] at h
    exact (framewise_x_some rows kf kf2 outs hx h).1

theorem rts_x_some :
    ∀ (outs : List KOutState) (kf : KF) (sm : List KOutState),
      (∀ o ∈ outs, o.1.isSome = true) → rts_smoother kf outs = .ok sm →
      ∀ o ∈ sm, o.1.isSome = true := by
  intro outs
  induction outs with
  | nil =>
    intro kf sm _ h o ho
    rw [← Except.ok.inj (h : Except.ok [] = Except.ok sm)] at ho
    simp at ho
  | cons a rest ih =>
    intro kf sm hall h o ho
    cases rest with
    | nil =>
      rw [← Except.ok.inj (h : Except.ok [a] = Except.ok sm)] at ho
      rw [List.mem_singleton.mp ho]
      exact hall a (List.mem_cons_self a [])
    | cons b rest' =>
      simp only [rts_smoother] at h
      cases hr : rts_smoother kf (b :: rest') with
      | error e => rw [hr] at h; simp [except_bind_error] at h
      | ok tl =>
        rw [hr] at h
        simp only [except_bind_ok] at h
        have htl : ∀ u ∈ tl, u.1.isSome = true :=
          ih kf tl (fun u hu => hall u (List.mem_cons_of_mem a hu)) hr
        cases tl with
        | nil => simp at h
        | cons t ts =>
          cases hmi : matInv (kf.F * a.2 * kf.F.transpose + kf.Q) with
          | none => rw [hmi] at h; simp at h
          | some PpI =>
            rw [hmi] at h
            rw [← Except.ok.inj h] at ho
            rcases List.mem_cons.mp ho with ho' | ho'
            · rcases Option.isSome_iff_exists.mp (hall a (List.mem_cons_self a _)) with ⟨va, hva⟩
              rcases Option.isSome_iff_exists.mp (htl t (List.mem_cons_self t _)) with ⟨vt, hvt⟩
              rw [ho', hva, hvt]
              rfl
            · exact htl o ho'

theorem processTrack_ok_allSome (g : List (Row α)) (kouts : List KOut)
    (hwf : ∀ r ∈ g, r.x.isSome = r.y.isSome)
    (h : processTrack g = .ok kouts) : ∀ ko ∈ kouts, koutAllSome ko = true := by
  unfold processTrack at h
  split at h
  · exact absurd h (by simp)
  · rename_i kf htf
    have hkfx : kf.x.isSome = true := by
      rcases Option.map_eq_some'.mp htf with ⟨r, _, hkf⟩
      rw [← hkf]
      rfl
    cases hrf : run_filter kf g with
    | error e => rw [hrf] at h; simp [except_bind_error] at h
    | ok pr =>
      obtain ⟨kf2, outs⟩ := pr
      rw [hrf] at h
      simp only [except_bind_ok] at h
      have houts : ∀ o ∈ outs, o.1.isSome = true :=
        run_filter_x_some kf g kf2 outs hkfx hwf hrf
      cases hsm : rts_smoother kf2 outs with
      | error e => rw [hsm] at h; simp [except_bind_error] at h
      | ok sm =>
        rw [hsm] at h
        simp only [except_bind_ok] at h
        have hsms : ∀ o ∈ sm, o.1.isSome = true := rts_x_some outs kf2 sm houts hsm
        intro ko hko
        rw [← Except.ok.inj h] at hko
        rcases List.mem_map.mp hko with ⟨u, hu, huo⟩
        rcases Option.isSome_iff_exists.mp (houts u.1 (List.of_mem_zip hu).1) with ⟨v1, hv1⟩
        rcases Option.isSome_iff_exists.mp (hsms u.2 (List.of_mem_zip hu).2) with ⟨v2, hv2⟩
        rw [← huo]
        simp [koutAllSome, hv1, hv2]

theorem foldlM_kalmanStep_grows (rows : List (Row α)) :
    ∀ (keys : List ℤ) (acc assoc : List (ℕ × KOut)),
      keys.foldlM (kalmanStep rows) acc = .ok assoc → ∃ t, assoc = acc ++ t := by
  intro keys
  induction keys with
  | nil =>
    intro acc assoc h
    refine ⟨[], ?_⟩
    rw [List.append_nil]
    exact (Except.ok.inj h).symm
  | cons k ks ih =>
    intro acc assoc h
    simp only [List.foldlM_cons] at h
    cases hstep : kalmanStep rows acc k with
    | error e => rw [hstep] at h; simp [except_bind_error] at h
    | ok acc' =>
      rw [hstep] at h
      simp only [except_bind_ok] at h
      rcases ih acc' assoc h with ⟨t, ht⟩
      simp only [kalmanStep] at hstep
      cases hpt : processTrack ((trackGroupIdx rows k).map Prod.snd) with
      | error e => rw [hpt] at hstep; simp [except_bind_error] at hstep
      | ok kouts =>
        rw [hpt] at hstep
        simp only [except_bind_ok] at hstep
        by_cases hlen : kouts.length = (trackGroupIdx rows k).length
        · rw [if_pos hlen] at hstep
          refine ⟨((trackGroupIdx rows k).map Prod.fst).zip kouts ++ t, ?_⟩
          rw [ht, ← Except.ok.inj hstep, List.append_assoc]
        · rw [if_neg hlen] at hstep; simp at hstep

theorem mem_zip_of_mem_left {β γ : Type} :
    ∀ (l : List β) (ks : List γ) (b : β), b ∈ l → ks.length = l.length →
      ∃ c, c ∈ ks ∧ (b, c) ∈ l.zip ks := by
  intro l
  induction l with
  | nil => intro ks b hb _; simp at hb
  | cons x xs ih =>
    intro ks b hb hlen
    cases ks with
    | nil => simp at hlen
    | cons c cs =>
      rcases List.mem_cons.mp hb with hb' | hb'
      · subst hb'
        exact ⟨c, List.mem_cons_self _ _, by simp⟩
      · have hlen' : cs.length = xs.length := by simpa using hlen
        rcases ih cs b hb' hlen' with ⟨c', hc1, hc2⟩
        exact ⟨c', List.mem_cons_of_mem _ hc1,
          by rw [List.zip_cons_cons]; exact List.mem_cons_of_mem _ hc2⟩

theorem foldlM_kalmanStep_covers (rows : List (Row α)) :
    ∀ (keys : List ℤ) (acc assoc : List (ℕ × KOut)),
      keys.foldlM (kalmanStep rows) acc = .ok assoc →
      ∀ k ∈ keys, ∀ pr ∈ trackGroupIdx rows k, ∃ ko, (pr.1, ko) ∈ assoc := by
  intro keys
  induction keys with
  | nil => intro acc assoc _ k hk; simp at hk
  | cons k' ks ih =>
    intro acc assoc h k hk
    simp only [List.foldlM_cons] at h
    cases hstep : kalmanStep rows acc k' with
    | error e => rw [hstep] at h; simp [except_bind_error] at h
    | ok acc' =>
      rw [hstep] at h
      simp only [except_bind_ok] at h
      rcases List.mem_cons.mp hk with hk' | hk'
      · subst hk'
        intro pr hpr
        simp only [kalmanStep] at hstep
        cases hpt : processTrack ((trackGroupIdx rows k).map Prod.snd) with
        | error e => rw [hpt] at hstep; simp [except_bind_error] at hstep
        | ok kouts =>
          rw [hpt] at hstep
          simp only [except_bind_ok] at hstep
          by_cases hlen : kouts.length = (trackGroupIdx rows k).length
          · rw [if_pos hlen] at hstep
            have hacc' : acc' = acc ++ ((trackGroupIdx rows k).map Prod.fst).zip kouts :=
              (Except.ok.inj hstep).symm
            have hb : pr.1 ∈ (trackGroupIdx rows k).map Prod.fst :=
              List.mem_map_of_mem Prod.fst hpr
            have hlen2 : kouts.length = ((trackGroupIdx rows k).map Prod.fst).length := by
              rw [List.length_map]; exact hlen
            rcases mem_zip_of_mem_left _ kouts pr.1 hb hlen2 with ⟨ko, _, hko⟩
            rcases foldlM_kalmanStep_grows rows ks acc' assoc h with ⟨t, ht⟩
            refine ⟨ko, ?_⟩
            rw [ht, hacc']
            exact List.mem_append_left t (List.mem_append_right acc hko)
          · rw [if_neg hlen] at hstep; simp at hstep
      · exact ih acc' assoc h k hk'

theorem foldlM_kalmanStep_values (rows : List (Row α))
    (hwf : ∀ r ∈ rows, r.x.isSome = r.y.isSome) :
    ∀ (keys : List ℤ) (acc assoc : List (ℕ × KOut)),
      keys.foldlM (kalmanStep rows) acc = .ok assoc →
      (∀ pr ∈ acc, koutAllSome pr.2 = true) →
      ∀ pr ∈ assoc, koutAllSome pr.2 = true := by
  intro keys
  induction keys with
  | nil =>
    intro acc assoc h hacc
    rw [← Except.ok.inj h]
    exact hacc
  | cons k ks ih =>
    intro acc assoc h hacc
    simp only [List.foldlM_cons] at h
    cases hstep : kalmanStep rows acc k with
    | error e => rw [hstep] at h; simp [except_bind_error] at h
    | ok acc' =>
      rw [hstep] at h
      simp only [except_bind_ok] at h
      refine ih acc' assoc h ?_
      simp only [kalmanStep] at hstep
      cases hpt : processTrack ((trackGroupIdx rows k).map Prod.snd) with
      | error e => rw [hpt] at hstep; simp [except_bind_error] at hstep
      | ok kouts =>
        rw [hpt] at hstep
        simp only [except_bind_ok] at hstep
        by_cases hlen : kouts.length = (trackGroupIdx rows k).length
        · rw [if_pos hlen] at hstep
          intro pr hpr
          rw [← Except.ok.inj hstep] at hpr
          rcases List.mem_append.mp hpr with hpr' | hpr'
          · exact hacc pr hpr'
          · obtain ⟨i, ko⟩ := pr
            have hgwf : ∀ r ∈ (trackGroupIdx rows k).map Prod.snd,
                r.x.isSome = r.y.isSome := by
              intro r hr
              rcases List.mem_map.mp hr with ⟨q, hq, hqr⟩
              have hqrows : q.2 ∈ rows := by
                have h1 := List.mem_map_of_mem Prod.snd (List.mem_filter.mp hq).1
                have h2 : rows.enum.map Prod.snd = rows := List.enumFrom_map_snd 0 rows
                rw [h2] at h1
                exact h1
              rw [← hqr]
              exact hwf q.2 hqrows
            exact processTrack_ok_allSome _ kouts hgwf hpt ko (List.of_mem_zip hpr').2
        · rw [if_neg hlen] at hstep; simp at hstep

theorem lookup_mem {γ : Type} :
    ∀ (l : List (ℕ × γ)) (a : ℕ) (b : γ), (a, b) ∈ l →
      ∃ c, l.lookup a = some c ∧ (a, c) ∈ l := by
  intro l
  induction l with
  | nil => intro a b h; simp at h
  | cons hd tl ih =>
    intro a b h
    obtain ⟨k, c⟩ := hd
    cases hbeq : a == k with
    | true =>
      have hak : a = k := by simpa using hbeq
      subst hak
      exact ⟨c, by simp [List.lookup], List.mem_cons_self _ _⟩
    | false =>
      have hak : ¬a = k := by simpa using hbeq
      rcases List.mem_cons.mp h with h' | h'
      · exact absurd (congrArg Prod.fst h') hak
      · rcases ih a b h' with ⟨c', hc1, hc2⟩
        refine ⟨c', ?_, List.mem_cons_of_mem _ hc2⟩
        simpa [List.lookup, hbeq] using hc1

/-- Claim C9 amended: on success, `kalman` returns the dataframe it was
given — the same rows in the same order with every pre-existing column
(modelled by the `Row` fields and the opaque payload) unchanged — and
pairs every row with one cell of each of the twelve added columns
`kalman_x, kalman_dx_dt, kalman_dx_dt_dt, kalman_y, kalman_dy_dt,
kalman_dy_dt_dt, rts_x, rts_dx_dt, rts_dx_dt_dt, rts_y, rts_dy_dt,
rts_dy_dt_dt` (the twelve fields of `KOut`); when every row of the input
has `x` present exactly when `y` is present, each of those cells holds a
value (not NaN).  Without that proviso the value part fails: see
`kalman_nan_cells_cex` for a mixed track whose added cells contain NaN. -/
theorem kalman_preserves_frame_adds_columns (rows : List (Row α))
    (out : List (Row α × KOut)) (h : kalman rows = .ok out) :
    out.map Prod.fst = rows ∧
    ((∀ r ∈ rows, r.x.isSome = r.y.isSome) → ∀ p ∈ out, koutAllSome p.2 = true) := by
  unfold kalman at h
  cases hf : (trackKeys rows).foldlM (kalmanStep rows) [] with
  | error e => rw [hf] at h; simp [except_bind_error] at h
  | ok assoc =>
    rw [hf] at h
    simp only [except_bind_ok] at h
    have hout : out = rows.enum.map fun q => (q.2, (assoc.lookup q.1).getD KOut.empty) :=
      (Except.ok.inj h).symm
    subst hout
    constructor
    · rw [List.map_map]
      exact List.enumFrom_map_snd 0 rows
    · intro hwf p hp
      rcases List.mem_map.mp hp with ⟨q, hq, hpq⟩
      obtain ⟨i, r⟩ := q
      have hrmem : r ∈ rows := by
        have h1 : (i, r).2 ∈ rows.enum.map Prod.snd := List.mem_map_of_mem Prod.snd hq
        have h2 : rows.enum.map Prod.snd = rows := List.enumFrom_map_snd 0 rows
        rw [h2] at h1
        exact h1
      have hkmem : r.trackingId ∈ trackKeys rows := by
        unfold trackKeys
        rw [List.mem_insertionSort, List.mem_dedup]
        exact List.mem_map_of_mem _ hrmem
      have hgrp : (i, r) ∈ trackGroupIdx rows r.trackingId := by
        unfold trackGroupIdx
        rw [List.mem_filter]
        exact ⟨hq, by simp⟩
      rcases foldlM_kalmanStep_covers rows (trackKeys rows) [] assoc hf
        r.trackingId hkmem (i, r) hgrp with ⟨ko, hko⟩
      rcases lookup_mem assoc i ko hko with ⟨c, hc1, hc2⟩
      have hvals := foldlM_kalmanStep_values rows hwf (trackKeys rows) [] assoc hf
        (by simp) (i, c) hc2
      rw [← hpq]
      simpa [hc1] using hvals

set_option maxRecDepth 100000 in
unseal Rat.add Rat.mul Rat.inv Rat.sub in
/-- Witness for the amended C9 at a concrete one-row track: the returned
dataframe is the input row again, and — the track being presence-consistent
— its twelve added cells all hold values (the raw measurement as position
with zero velocity and acceleration). -/
theorem kalman_preserves_frame_adds_columns_witness :
    ([((⟨1, 0, some 3, some 4, ()⟩ : Row Unit),
        (⟨some 3, some 0, some 0, some 4, some 0, some 0,
          some 3, some 0, some 0, some 4, some 0, some 0⟩ : KOut))].map Prod.fst) =
      [(⟨1, 0, some 3, some 4, ()⟩ : Row Unit)] ∧
    koutAllSome (⟨some 3, some 0, some 0, some 4, some 0, some 0,
      some 3, some 0, some 0, some 4, some 0, some 0⟩ : KOut) = true :=
  ⟨(kalman_preserves_frame_adds_columns [⟨1, 0, some 3, some 4, ()⟩]
      [(⟨1, 0, some 3, some 4, ()⟩,
        ⟨some 3, some 0, some 0, some 4, some 0, some 0,
          some 3, some 0, some 0, some 4, some 0, some 0⟩)] (by decide)).1,
    (kalman_preserves_frame_adds_columns [⟨1, 0, some 3, some 4, ()⟩]
      [(⟨1, 0, some 3, some 4, ()⟩,
        ⟨some 3, some 0, some 0, some 4, some 0, some 0,
          some 3, some 0, some 0, some 4, some 0, some 0⟩)] (by decide)).2
      (by decide)
      (⟨1, 0, some 3, some 4, ()⟩,
        ⟨some 3, some 0, some 0, some 4, some 0, some 0,
          some 3, some 0, some 0, some 4, some 0, some 0⟩)
      (by decide)⟩

set_option maxRecDepth 1000000 in
set_option maxHeartbeats 16000000 in
unseal Rat.add Rat.mul Rat.inv Rat.sub in
/-- Counterexample to claim C9 as stated: on a two-frame track whose second
row has `x` present but `y` missing (NaN) inside a present run, `kalman`
succeeds and returns the frame, but the NaN measurement cell poisons the
filter state, so the second row's twelve added cells and the first row's
six `rts_` cells are all NaN — the added columns do not hold one value per
input row. -/
theorem kalman_nan_cells_cex :
    kalman [(⟨1, 0, some 1, some 2, ()⟩ : Row Unit), ⟨1, 1, some 3, none, ()⟩] =
      .ok [(⟨1, 0, some 1, some 2, ()⟩,
            ⟨some 1, some 0, some 0, some 2, some 0, some 0,
              none, none, none, none, none, none⟩),
           (⟨1, 1, some 3, none, ()⟩,
            ⟨none, none, none, none, none, none,
              none, none, none, none, none, none⟩)] ∧
    ¬(∀ p ∈ [((⟨1, 0, some 1, some 2, ()⟩ : Row Unit),
            (⟨some 1, some 0, some 0, some 2, some 0, some 0,
              none, none, none, none, none, none⟩ : KOut)),
           (⟨1, 1, some 3, none, ()⟩,
            ⟨none, none, none, none, none, none,
              none, none, none, none, none, none⟩)], koutAllSome p.2 = true) := by
  exact ⟨by decide, by decide⟩

/-! ### Claim C6: forward/inverse round trip of the pure homography case -/

theorem detRec_eq {n : ℕ} (A : Matrix (Fin n) (Fin n) ℚ) : detRec A = A.det := by
  induction n with
  | zero => simp [detRec]
  | succ n ih =>
    rw [Matrix.det_succ_row_zero]
    simp only [detRec]
    exact Finset.sum_congr rfl fun j _ => by rw [ih]

theorem matInv_mul {n : ℕ} (A B : Matrix (Fin n) (Fin n) ℚ) (h : matInv A = some B) :
    B * A = 1 := by
  unfold matInv at h
  simp only [detRec_eq] at h
  by_cases hd : A.det = 0
  · rw [if_pos hd] at h
    simp at h
  · rw [if_neg hd] at h
    rw [← Option.some.inj h, Matrix.smul_mul, Matrix.adjugate_mul, smul_smul,
      inv_mul_cancel₀ hd, one_smul]

/-- Claim C6 (with `PixelMapper.inv` modelled from the spec, the method
being absent from the source): for a distortion-free mapper with an
invertible homography, any pixel point `p` whose forward image is the
finite point `q` is recovered exactly by the inverse transform — over exact
rational arithmetic the round trip is exact, hence within any tolerance. -/
theorem forward_inverse_roundtrip (cv : CvBackend) (pm : PixelMapper) (p q : Pt)
    (hno : pm.intrinsic_mtx = none)
    (hdet : pm.homography.det ≠ 0)
    (hfwd : (pm.call cv [p]).1 = [some q]) :
    pm.inv [q] = some [some p] := by
  have hfwd1 : perspectiveTransform pm.homography p = some q := by
    unfold PixelMapper.call at hfwd
    rw [hno] at hfwd
    simpa using hfwd
  have hv : (pm.homography.mulVec ![p.1, p.2, 1]) 2 ≠ 0 ∧
      q = ((pm.homography.mulVec ![p.1, p.2, 1]) 0 / (pm.homography.mulVec ![p.1, p.2, 1]) 2,
           (pm.homography.mulVec ![p.1, p.2, 1]) 1 /
             (pm.homography.mulVec ![p.1, p.2, 1]) 2) := by
    simp only [perspectiveTransform] at hfwd1
    by_cases hz : (pm.homography.mulVec ![p.1, p.2, 1]) 2 = 0
    · rw [if_pos hz] at hfwd1
      exact absurd hfwd1 (by simp)
    · rw [if_neg hz] at hfwd1
      exact ⟨hz, (Option.some.inj hfwd1).symm⟩
  obtain ⟨hz, hq⟩ := hv
  have hmi : matInv pm.homography =
      some (pm.homography.det⁻¹ • pm.homography.adjugate) := by
    unfold matInv
    simp only [detRec_eq]
    rw [if_neg hdet]
  have hHiH : (pm.homography.det⁻¹ • pm.homography.adjugate) * pm.homography = 1 :=
    matInv_mul _ _ hmi
  have hq1 : (![q.1, q.2, 1] : Fin 3 → ℚ) =
      ((pm.homography.mulVec ![p.1, p.2, 1]) 2)⁻¹ •
        pm.homography.mulVec ![p.1, p.2, 1] := by
    funext i
    fin_cases i
    · rw [hq]
      simp [div_eq_inv_mul]
    · rw [hq]
      simp [div_eq_inv_mul]
    · simp [inv_mul_cancel₀ hz]
  have hkey : (pm.homography.det⁻¹ • pm.homography.adjugate).mulVec ![q.1, q.2, 1] =
      ((pm.homography.mulVec ![p.1, p.2, 1]) 2)⁻¹ • (![p.1, p.2, 1] : Fin 3 → ℚ) := by
    rw [hq1, Matrix.mulVec_smul, Matrix.mulVec_mulVec, hHiH, Matrix.one_mulVec]
  have hc : ((pm.homography.mulVec ![p.1, p.2, 1]) 2)⁻¹ ≠ 0 := inv_ne_zero hz
  have hpersp : perspectiveTransform
      (pm.homography.det⁻¹ • pm.homography.adjugate) q = some p := by
    simp only [perspectiveTransform, hkey]
    rw [if_neg (by simpa using hc)]
    have h1 : (((pm.homography.mulVec ![p.1, p.2, 1]) 2)⁻¹ •
        (![p.1, p.2, 1] : Fin 3 → ℚ)) 2 = ((pm.homography.mulVec ![p.1, p.2, 1]) 2)⁻¹ := by
      simp
    congr 1
    rw [Prod.ext_iff]
    constructor
    · show (((pm.homography.mulVec ![p.1, p.2, 1]) 2)⁻¹ •
          (![p.1, p.2, 1] : Fin 3 → ℚ)) 0 /
        (((pm.homography.mulVec ![p.1, p.2, 1]) 2)⁻¹ •
          (![p.1, p.2, 1] : Fin 3 → ℚ)) 2 = p.1
      simp only [Pi.smul_apply, smul_eq_mul]
      rw [show ((![p.1, p.2, 1] : Fin 3 → ℚ) 0) = p.1 from rfl,
        show ((![p.1, p.2, 1] : Fin 3 → ℚ) 2) = 1 from rfl, mul_one]
      exact mul_div_cancel_left₀ p.1 hc
    · show (((pm.homography.mulVec ![p.1, p.2, 1]) 2)⁻¹ •
          (![p.1, p.2, 1] : Fin 3 → ℚ)) 1 /
        (((pm.homography.mulVec ![p.1, p.2, 1]) 2)⁻¹ •
          (![p.1, p.2, 1] : Fin 3 → ℚ)) 2 = p.2
      simp only [Pi.smul_apply, smul_eq_mul]
      rw [show ((![p.1, p.2, 1] : Fin 3 → ℚ) 1) = p.2 from rfl,
        show ((![p.1, p.2, 1] : Fin 3 → ℚ) 2) = 1 from rfl, mul_one]
      exact mul_div_cancel_left₀ p.2 hc
  show pm.inv [q] = some [some p]
  simp [PixelMapper.inv, hmi, hpersp]

unseal Rat.add Rat.mul Rat.inv Rat.sub in
/-- Witness for C6 at a concrete translation-like homography: the pixel
point `(3, 4)` maps forward to `(4, 6)` and the inverse transform recovers
`(3, 4)` exactly. -/
theorem forward_inverse_roundtrip_witness :
    PixelMapper.inv ⟨none, [], none, !![1, 0, 1; 0, 1, 2; 0, 0, 1], false⟩
        [((4 : ℚ), (6 : ℚ))] =
      some [some ((3 : ℚ), (4 : ℚ))] :=
  forward_inverse_roundtrip ⟨fun _ _ _ X => X, fun _ _ _ X => X⟩
    ⟨none, [], none, !![1, 0, 1; 0, 1, 2; 0, 0, 1], false⟩ (3, 4) (4, 6)
    rfl (by rw [Matrix.det_fin_three]; decide) (by decide)

end IW
